import Mathlib

set_option maxRecDepth 4000

/-!
Verification of the Perma-Recall-Link visited-URL tracker.

The definitions below are shallow embeddings of the content-script
(query cache / deduplicator / link scanner) and of the background
service worker (IndexedDB store, bulk importer, TSV export/import,
message handlers).  Text is modelled as `List Char`, the IndexedDB
object store as an association list of records keyed by URL, and the
single-threaded-with-suspension-points concurrency of the scripts as
explicit step functions / state trajectories.
-/

/-- Whitespace as recognised by JavaScript `trim()` / `parseInt` for the
ASCII range (space, tab, LF, CR, VT, FF). -/
def isJsWs (c : Char) : Bool :=
  c == ' ' || c == '\t' || c == '\n' || c == '\r' ||
  c == Char.ofNat 11 || c == Char.ofNat 12

/-- `String.prototype.trim()` on a list of characters. -/
def jsTrim (l : List Char) : List Char :=
  ((l.dropWhile isJsWs).reverse.dropWhile isJsWs).reverse

/-- `text.split(sep)` for a single-character separator: always returns at
least one (possibly empty) piece. -/
def splitOnChar (sep : Char) : List Char → List (List Char)
  | [] => [[]]
  | c :: cs =>
    if c == sep then [] :: splitOnChar sep cs
    else
      match splitOnChar sep cs with
      | [] => [[c]]
      | t :: ts => (c :: t) :: ts

/-- `str.replace(/pat/g, rep)` for a one-character pattern. -/
def replaceChar (pat : Char) (rep : List Char) : List Char → List Char
  | [] => []
  | c :: cs =>
    if c == pat then rep ++ replaceChar pat rep cs
    else c :: replaceChar pat rep cs

/-- `str.replace(/ab/g, r)` for a two-character pattern replaced by one
character, scanning left to right without overlap, as a global regex
replace does. -/
def replaceSeq2 (a b : Char) (rep : Char) : List Char → List Char
  | [] => []
  | [c] => [c]
  | c :: d :: cs =>
    if c == a && d == b then rep :: replaceSeq2 a b rep cs
    else c :: replaceSeq2 a b rep (d :: cs)

/-- Field escaping of `exportHistoryToTSV` (background script lines
310-313): `\t` → `\\t`, then `\n` → `\\n`, then `\r` → `\\r`. -/
def escapeField (s : List Char) : List Char :=
  replaceChar '\r' ['\\', 'r']
    (replaceChar '\n' ['\\', 'n']
      (replaceChar '\t' ['\\', 't'] s))

/-- Field unescaping of `importHistoryFromTSV` (background script line
344): `\\t` → `\t`, then `\\n` → `\n`, then `\\r` → `\r`. -/
def unescapeField (s : List Char) : List Char :=
  replaceSeq2 '\\' 'r' '\r'
    (replaceSeq2 '\\' 'n' '\n'
      (replaceSeq2 '\\' 't' '\t' s))

/-- Decimal digit character for a value below ten. -/
def digitChar (n : Nat) : Char := Char.ofNat (48 + n)

/-- Decimal rendering of a natural number, fuelled so that it is
structurally recursive (the fuel is always sufficient at `n + 1`). -/
def natReprAux : Nat → Nat → List Char
  | 0, _ => []
  | fuel + 1, n =>
    if n < 10 then [digitChar n]
    else natReprAux fuel (n / 10) ++ [digitChar (n % 10)]

/-- Decimal rendering of a natural number, as JavaScript template-literal
interpolation of a non-negative integer produces. -/
def natRepr (n : Nat) : List Char := natReprAux (n + 1) n

/-- Decimal rendering of a JavaScript integer (possibly negative). -/
def intRepr (i : Int) : List Char :=
  if i < 0 then '-' :: natRepr (-i).toNat else natRepr i.toNat

/-- `parseInt(s, 10)`: skip leading whitespace, optional sign, then a
non-empty run of decimal digits (trailing characters ignored); `none`
models `NaN`. -/
def jsParseInt (s : List Char) : Option Int :=
  let s1 := s.dropWhile isJsWs
  let neg := s1.headD ' ' == '-'
  let s2 := if s1.headD ' ' == '-' || s1.headD ' ' == '+' then s1.tail else s1
  let ds := s2.takeWhile Char.isDigit
  if ds.isEmpty then none
  else
    let v : Nat := ds.foldl (fun a c => a * 10 + (c.toNat - 48)) 0
    some (if neg then -(v : Int) else (v : Int))

/-- A record of the `VisitedLinks` object store: a URL keyed uniquely,
with an epoch-milliseconds timestamp. -/
structure VisitRecord where
  url : List Char
  timestamp : Int
deriving DecidableEq, Repr

/-- `store.put(record)` of IndexedDB with `keyPath: 'url'`: upsert —
overwrite the record with the same key if present, append otherwise. -/
def dbPut (store : List VisitRecord) (r : VisitRecord) : List VisitRecord :=
  if store.any (fun x => x.url == r.url) then
    store.map (fun x => if x.url == r.url then r else x)
  else store ++ [r]

/-- The per-line loop of `importHistoryFromTSV` (background script lines
332-373): trim, skip blanks, split on tab, reject lines with fewer than
two fields / unparseable timestamps / empty unescaped URLs, upsert the
rest. -/
def processLines (store : List VisitRecord) (imported errors : Nat) :
    List (List Char) → List VisitRecord × Nat × Nat
  | [] => (store, imported, errors)
  | l :: rest =>
    let line := jsTrim l
    if line.isEmpty then processLines store imported errors rest
    else
      let parts := splitOnChar '\t' line
      if parts.length < 2 then processLines store imported (errors + 1) rest
      else
        let url := unescapeField (parts.headD [])
        match jsParseInt (parts.getD 1 []) with
        | none => processLines store imported (errors + 1) rest
        | some ts =>
          if url.isEmpty then processLines store imported (errors + 1) rest
          else processLines (dbPut store ⟨url, ts⟩) (imported + 1) errors rest

/-- `importHistoryFromTSV` (background script lines 325-381): split the
text on newlines, skip the header line, process every other line;
returns the updated store together with the `imported` and `errors`
counts. -/
def importHistoryFromTSV (tsvData : List Char) (store : List VisitRecord) :
    List VisitRecord × Nat × Nat :=
  processLines store 0 0 ((splitOnChar '\n' tsvData).drop 1)

/-- `exportHistoryToTSV` (background script lines 302-322): the header
line `url\ttimestamp` followed by one escaped line per record, built by
successive string concatenation over the store's records. -/
def exportHistoryToTSV (records : List VisitRecord) : List Char :=
  records.foldl
    (fun acc r => acc ++ (escapeField r.url ++ '\t' :: intRepr r.timestamp ++ ['\n']))
    ("url\ttimestamp\n".data)

/-- One exported record line, without its trailing newline (template
literal at background script line 313). -/
def recordLine (r : VisitRecord) : List Char :=
  escapeField r.url ++ '\t' :: intRepr r.timestamp

/-- Concatenation of the exported record lines, each newline-terminated. -/
def linesCat : List VisitRecord → List Char
  | [] => []
  | r :: rs => recordLine r ++ '\n' :: linesCat rs

/-- Characters that JavaScript `trim()` strips but the export escaping
leaves unchanged (space, VT, FF in the ASCII range). -/
def isSpaceLike (c : Char) : Bool :=
  c == ' ' || c == Char.ofNat 11 || c == Char.ofNat 12

/-- A URL that survives the TSV round trip verbatim: non-empty, free of
backslashes (the export escaping is not injective on backslashes), and
not starting with whitespace that import's `trim()` would strip. -/
def goodUrl (u : List Char) : Bool :=
  !u.isEmpty && !u.contains '\\' && !isSpaceLike (u.headD 'a')

/-- First-occurrence de-duplication of strings, as `[...new Set(xs)]`
produces. -/
def dedupKeep (seen : List String) : List String → List String
  | [] => []
  | x :: xs =>
    if seen.contains x then dedupKeep seen xs
    else x :: dedupKeep (seen ++ [x]) xs

/-- An in-flight store query of the content script: its promise identity,
the URLs it asks about, and whether it came from `checkUrlVisited`
(single) or from `checkUrlsBatch`. -/
structure StoreQuery where
  qid : Nat
  urls : List String
  single : Bool
deriving DecidableEq, Repr

/-- An entry of the `pendingChecks` map: the promise of a live query, or a
promise that already resolved to `false` (left behind by the
invalidated-context and synchronous-throw paths of `checkUrlVisited`,
whose executor resolves before line 107 stores the promise). -/
inductive PendEntry where
  | live (qid : Nat)
  | doneFalse
deriving DecidableEq, Repr

/-- The content-script session state: `urlCache`, `pendingChecks`, a
fresh-promise counter, and the store queries awaiting a reply. -/
structure Session where
  cache : List (String × Bool)
  pending : List (String × PendEntry)
  nextId : Nat
  inflight : List StoreQuery
deriving DecidableEq, Repr

def emptySession : Session := ⟨[], [], 0, []⟩

/-- `Map.get` of a JavaScript Map modelled as an association list. -/
def mget? {α : Type} (m : List (String × α)) (k : String) : Option α :=
  match m with
  | [] => none
  | p :: rest => if p.1 == k then some p.2 else mget? rest k

/-- `Map.set`: overwrite the entry in place if the key exists, append a
new entry otherwise. -/
def mset {α : Type} (m : List (String × α)) (k : String) (v : α) :
    List (String × α) :=
  match m with
  | [] => [(k, v)]
  | p :: rest => if p.1 == k then (k, v) :: rest else p :: mset rest k v

/-- `Map.delete`. -/
def mdel {α : Type} (m : List (String × α)) (k : String) : List (String × α) :=
  m.filter (fun p => p.1 != k)

/-- What a `checkUrlVisited` call yields at its first suspension point: an
already-known boolean, attachment to a pending promise, or a freshly
issued store query. -/
inductive OneRes where
  | val (b : Bool)
  | attached (qid : Nat)
  | issued (qid : Nat)
deriving DecidableEq, Repr

/-- `checkUrlVisited` (content script lines 58-109) up to its first
suspension point.  `ctxValid` models `chrome.runtime?.id` being truthy;
`ctxValid = false` also covers `sendMessage` throwing synchronously.  In
those two cases the promise resolves `false` inside the executor, and
line 107 afterwards still stores the already-resolved promise in
`pendingChecks` — modelled by the `doneFalse` entry. -/
def checkUrlVisited (norm : String → String) (ctxValid : Bool) (s : Session)
    (url : String) : Session × OneRes :=
  let nu := norm url
  match mget? s.cache nu with
  | some b => (s, OneRes.val b)
  | none =>
    match mget? s.pending nu with
    | some (PendEntry.live q) => (s, OneRes.attached q)
    | some PendEntry.doneFalse => (s, OneRes.val false)
    | none =>
      if ctxValid then
        ({ cache := s.cache,
           pending := mset s.pending nu (PendEntry.live s.nextId),
           nextId := s.nextId + 1,
           inflight := s.inflight ++ [⟨s.nextId, [nu], true⟩] },
         OneRes.issued s.nextId)
      else
        ({ s with pending := mset s.pending nu PendEntry.doneFalse },
         OneRes.val false)

/-- The query-issuing part of `checkUrlsBatch` (content script lines
112-135) in a valid context: de-duplicate the normalized URLs, keep the
uncached subset and — when it is non-empty — send one batched query.
The `pendingChecks` map is neither consulted nor updated. -/
def checkUrlsBatchStart (norm : String → String) (s : Session)
    (urls : List String) : Session :=
  let uniqueUrls := dedupKeep [] (urls.map norm)
  let uncachedUrls := uniqueUrls.filter (fun u => !(mget? s.cache u).isSome)
  if uncachedUrls.isEmpty then s
  else
    { s with nextId := s.nextId + 1,
             inflight := s.inflight ++ [⟨s.nextId, uncachedUrls, false⟩] }

/-- A full run of `checkUrlsBatch` (content script lines 112-164): the
results the caller receives once the underlying batched query, if any,
settles.  `resp = none` models `chrome.runtime.lastError`; `ctxValid =
false` models an invalidated context (the synchronous-throw path behaves
identically).  On success the reply's URL/boolean pairs are written into
the cache and every distinct requested URL is answered from the updated
cache via `urlCache.get(url) || false` (line 153). -/
def checkUrlsBatch (norm : String → String) (ctxValid : Bool) (s : Session)
    (urls : List String) (resp : Option (List (String × Bool))) :
    Session × List (String × Bool) :=
  let uniqueUrls := dedupKeep [] (urls.map norm)
  let uncachedUrls := uniqueUrls.filter (fun u => !(mget? s.cache u).isSome)
  if uncachedUrls.isEmpty then
    (s, uniqueUrls.map (fun u => (u, (mget? s.cache u).getD false)))
  else if !ctxValid then
    (s, uniqueUrls.map (fun u => (u, false)))
  else
    match resp with
    | none => (s, uniqueUrls.map (fun u => (u, false)))
    | some rs =>
      let cache2 := rs.foldl (fun c p => mset c p.1 p.2) s.cache
      ({ s with cache := cache2 },
       uniqueUrls.map (fun u => (u, (mget? cache2 u).getD false)))

/-- Events of one document session: `checkUrlVisited` starts and the
settlements of its single queries, plus `checkUrlsBatch` starts and the
settlements of its batched queries. -/
inductive Ev where
  | one (ctxValid : Bool) (url : String)
  | oneOk (qid : Nat) (b : Bool)
  | oneFail (qid : Nat)
  | many (ctxValid : Bool) (urls : List String)
  | manyOk (qid : Nat) (rs : List (String × Bool))
  | manyFail (qid : Nat)
deriving DecidableEq, Repr

def findSingle (l : List StoreQuery) (q : Nat) : Option StoreQuery :=
  l.find? (fun x => x.qid == q && x.single)

/-- One synchronous segment of the session, triggered by an event.
Settling a single query caches its boolean only on success (content
script lines 92-97) and deletes its pending entry either way (lines 87
and 96); settling a batched query merges a successful reply into the
cache (lines 144-148) and touches nothing on failure. -/
def stepEv (norm : String → String) (s : Session) : Ev → Session
  | Ev.one cv url => (checkUrlVisited norm cv s url).1
  | Ev.oneOk q b =>
    match findSingle s.inflight q with
    | some qu =>
      { s with cache := mset s.cache (qu.urls.headD "") b,
               pending := mdel s.pending (qu.urls.headD ""),
               inflight := s.inflight.filter (fun x => x.qid != q) }
    | none => s
  | Ev.oneFail q =>
    match findSingle s.inflight q with
    | some qu =>
      { s with pending := mdel s.pending (qu.urls.headD ""),
               inflight := s.inflight.filter (fun x => x.qid != q) }
    | none => s
  | Ev.many cv urls => if cv then checkUrlsBatchStart norm s urls else s
  | Ev.manyOk q rs =>
    { s with cache := rs.foldl (fun c p => mset c p.1 p.2) s.cache,
             inflight := s.inflight.filter (fun x => x.qid != q) }
  | Ev.manyFail q =>
    { s with inflight := s.inflight.filter (fun x => x.qid != q) }

def runEvents (norm : String → String) (s : Session) (evs : List Ev) : Session :=
  evs.foldl (stepEv norm) s

/-- Events that travel only the `checkUrlVisited` code path. -/
def oneOnly : Ev → Bool
  | Ev.one _ _ => true
  | Ev.oneOk _ _ => true
  | Ev.oneFail _ => true
  | _ => false

/-- Invariant of sessions that have only travelled the `checkUrlVisited`
path: every in-flight query is a single-URL query registered in
`pendingChecks` under its URL, query identities are fresh and pairwise
distinct. -/
structure InvS (s : Session) : Prop where
  wf : ∀ q ∈ s.inflight, q.single = true ∧
    ∃ u, q.urls = [u] ∧ mget? s.pending u = some (PendEntry.live q.qid)
  fresh : ∀ q ∈ s.inflight, q.qid < s.nextId
  distinct : s.inflight.Pairwise (fun a b => a.qid ≠ b.qid)

/-- The `importProgress` singleton of the background script (lines
10-14). -/
structure ImportProgress where
  inProgress : Bool
  total : Nat
  imported : Nat
deriving DecidableEq, Repr

/-- The cumulative `imported` counter after each batch of
`importHistoryToDB`'s loop (lines 126-139): `min(i + 100, n)` for
`i = 0, 100, 200, ...` below `n`. -/
def batchImported (n : Nat) : List Nat :=
  (List.range ((n + 99) / 100)).map (fun k => min ((k + 1) * 100) n)

/-- The sequence of `importProgress` states one run of `importHistoryToDB`
(lines 106-155) passes through, given the progress left by the previous
run and the number `n` of items `chrome.history.search` returns: lines
109-110 set `inProgress` and `imported` before the awaited search, line
121 sets `total` after it, each batch updates `imported`, and completion
clears `inProgress`. -/
def importRunTrajectory (p : ImportProgress) (n : Nat) : List ImportProgress :=
  let p1 : ImportProgress := ⟨true, p.total, 0⟩
  let p2 : ImportProgress := ⟨true, n, 0⟩
  let bs := (batchImported n).map (fun m => (⟨true, n, m⟩ : ImportProgress))
  let pend : ImportProgress := ⟨false, n, (batchImported n).getLastD 0⟩
  p1 :: p2 :: bs ++ [pend]

/-- The `importHistory` message handler (lines 440-456): reject with an
error while a run is in progress, otherwise run `importHistoryToDB`.
Returns the error (if any), the final progress state, and the states the
accepted run passes through. -/
def handleImportHistory (p : ImportProgress) (n : Nat) :
    Option String × ImportProgress × List ImportProgress :=
  if p.inProgress then (some "Import already in progress", p, [])
  else (none, ⟨false, n, (batchImported n).getLastD 0⟩, importRunTrajectory p n)

/-- The module state backing `initDB` (background script lines 6-7): the
memoized initialization promise, identified by an allocation number, and
a supply of fresh promise identities. -/
structure DBInit where
  dbInitPromise : Option Nat
  nextAttempt : Nat
deriving DecidableEq, Repr

/-- `initDB` (lines 17-51): return the memoized promise if there is one,
otherwise allocate a new attempt and memoize it while it is in flight. -/
def initDB (s : DBInit) : DBInit × Nat :=
  match s.dbInitPromise with
  | some a => (s, a)
  | none => (⟨some s.nextAttempt, s.nextAttempt + 1⟩, s.nextAttempt)

/-- Settling the open request of attempt: `onsuccess` keeps the memoized
promise, `onerror` (line 28) resets `dbInitPromise` to `null` so that the
next call retries. -/
def settleInit (s : DBInit) (success : Bool) : DBInit :=
  if success then s else ⟨none, s.nextAttempt⟩

/-- Background state relevant to `clearHistory`, `getStats` and
`initialize`: the object store plus the durable `chrome.storage.local`
flags `historyImported` and `lastImportTime`. -/
structure BgState where
  store : List VisitRecord
  historyImported : Bool
  lastImportTime : Option Int
deriving DecidableEq, Repr

/-- The `clearHistory` handler (lines 465-483): clear every record, then
reset `historyImported` to `false` and `lastImportTime` to `null`. -/
def handleClearHistory (_g : BgState) : BgState × Bool :=
  ({ store := [], historyImported := false, lastImportTime := none }, true)

/-- The `getStats` handler (lines 420-437): the store's record count and
`storage.lastImportTime || null`. -/
def handleGetStats (g : BgState) : Nat × Option Int :=
  (g.store.length, g.lastImportTime)

/-- Whether `initialize` (lines 158-174) starts a bulk history import: it
does iff the durable `historyImported` flag is not set. -/
def initializeRuns (g : BgState) : Bool := !g.historyImported

/-- A link element of the page: an identity and its `href` property. -/
structure LinkEl where
  elId : Nat
  href : String
deriving DecidableEq, Repr

/-- The filter of `processLinks` (content script line 192): skip link
elements with an empty, `javascript:` or fragment target. -/
def passesFilter (l : LinkEl) : Bool :=
  !(l.href == "" || l.href.startsWith "javascript:" || l.href.startsWith "#")

/-- `urlToLinks.get(nu).push(link)` (content script line 201). -/
def addToGroup (m : List (String × List LinkEl)) (u : String) (l : LinkEl) :
    List (String × List LinkEl) :=
  m.map (fun p => if p.1 == u then (p.1, p.2 ++ [l]) else p)

/-- The collection loop body of `processLinks` (content script lines
189-205): skip filtered links, group the rest by normalized URL and
record each new URL in first-occurrence order. -/
def processLinksStep (norm : String → String)
    (acc : List (String × List LinkEl) × List String) (link : LinkEl) :
    List (String × List LinkEl) × List String :=
  if passesFilter link then
    let nu := norm link.href
    if acc.1.any (fun p => p.1 == nu) then (addToGroup acc.1 nu link, acc.2)
    else (acc.1 ++ [(nu, [link])], acc.2 ++ [nu])
  else acc

/-- The collection phase of `processLinks` (content script lines 174-205):
the `urlToLinks` grouping and the ordered distinct URL list. -/
def processLinks (norm : String → String) (links : List LinkEl) :
    List (String × List LinkEl) × List String :=
  links.foldl (processLinksStep norm) ([], [])

/-- Modelled from the spec's words, for comparison with `processLinks`:
the distinct normalized URLs of the collectable links in first-occurrence
order. -/
def scanSpecUrls (norm : String → String) (links : List LinkEl) : List String :=
  dedupKeep [] ((links.filter passesFilter).map (fun l => norm l.href))

/-- Modelled from the spec's words, for comparison with `processLinks`:
the collected link elements backing one normalized URL, in document
order. -/
def scanSpecGroup (norm : String → String) (links : List LinkEl) (u : String) :
    List LinkEl :=
  links.filter (fun l => passesFilter l && norm l.href == u)

/-- Per-character view of `escapeField`. -/
def escCharSpec (c : Char) : List Char :=
  if c = '\t' then ['\\', 't']
  else if c = '\n' then ['\\', 'n']
  else if c = '\r' then ['\\', 'r']
  else [c]

theorem escapeField_nil : escapeField [] = [] := rfl

theorem escapeField_cons (c : Char) (cs : List Char) :
    escapeField (c :: cs) = escCharSpec c ++ escapeField cs := by
  by_cases h1 : c = '\t'
  · subst h1; simp [escapeField, escCharSpec, replaceChar]
  · by_cases h2 : c = '\n'
    · subst h2; simp [escapeField, escCharSpec, replaceChar]
    · by_cases h3 : c = '\r'
      · subst h3; simp [escapeField, escCharSpec, replaceChar]
      · simp [escapeField, escCharSpec, replaceChar, h1, h2, h3]

theorem mem_escCharSpec (x c : Char) (h : x ∈ escCharSpec c) :
    x = '\\' ∨ x = 't' ∨ x = 'n' ∨ x = 'r' ∨ (x = c ∧ c ≠ '\t' ∧ c ≠ '\n' ∧ c ≠ '\r') := by
  unfold escCharSpec at h
  split_ifs at h with h1 h2 h3
  · simp at h
    rcases h with h | h
    · exact Or.inl h
    · exact Or.inr (Or.inl h)
  · simp at h
    rcases h with h | h
    · exact Or.inl h
    · exact Or.inr (Or.inr (Or.inl h))
  · simp at h
    rcases h with h | h
    · exact Or.inl h
    · exact Or.inr (Or.inr (Or.inr (Or.inl h)))
  · simp at h
    exact Or.inr (Or.inr (Or.inr (Or.inr ⟨h, h1, h2, h3⟩)))

theorem escapeField_no_ctl (s : List Char) :
    '\t' ∉ escapeField s ∧ '\n' ∉ escapeField s ∧ '\r' ∉ escapeField s := by
  induction s with
  | nil => simp [escapeField_nil]
  | cons c cs ih =>
    rw [escapeField_cons]
    refine ⟨?_, ?_, ?_⟩ <;> rw [List.mem_append] <;> rintro (h | h)
    · rcases mem_escCharSpec _ _ h with h' | h' | h' | h' | ⟨h', hn, _, _⟩ <;>
        first | exact absurd h' (by decide) | exact hn h'.symm
    · exact ih.1 h
    · rcases mem_escCharSpec _ _ h with h' | h' | h' | h' | ⟨h', _, hn, _⟩ <;>
        first | exact absurd h' (by decide) | exact hn h'.symm
    · exact ih.2.1 h
    · rcases mem_escCharSpec _ _ h with h' | h' | h' | h' | ⟨h', _, _, hn⟩ <;>
        first | exact absurd h' (by decide) | exact hn h'.symm
    · exact ih.2.2 h

theorem replaceSeq2_cons_ne (a b rep : Char) (c : Char) (l : List Char)
    (h : c ≠ a) : replaceSeq2 a b rep (c :: l) = c :: replaceSeq2 a b rep l := by
  cases l with
  | nil => simp [replaceSeq2]
  | cons d ds => simp [replaceSeq2, h]

theorem unescapeField_nil : unescapeField [] = [] := rfl

theorem unescapeField_cons_ne (c : Char) (l : List Char) (h : c ≠ '\\') :
    unescapeField (c :: l) = c :: unescapeField l := by
  unfold unescapeField
  rw [replaceSeq2_cons_ne _ _ _ _ _ h]
  rw [replaceSeq2_cons_ne _ _ _ _ _ h]
  rw [replaceSeq2_cons_ne _ _ _ _ _ h]

theorem unescapeField_tab (l : List Char) :
    unescapeField ('\\' :: 't' :: l) = '\t' :: unescapeField l := by
  unfold unescapeField
  have h1 : replaceSeq2 '\\' 't' '\t' ('\\' :: 't' :: l)
      = '\t' :: replaceSeq2 '\\' 't' '\t' l := by simp [replaceSeq2]
  rw [h1, replaceSeq2_cons_ne '\\' 'n' '\n' '\t' _ (by decide),
      replaceSeq2_cons_ne '\\' 'r' '\r' '\t' _ (by decide)]

theorem unescapeField_nl (l : List Char) :
    unescapeField ('\\' :: 'n' :: l) = '\n' :: unescapeField l := by
  unfold unescapeField
  have h1 : replaceSeq2 '\\' 't' '\t' ('\\' :: 'n' :: l)
      = '\\' :: 'n' :: replaceSeq2 '\\' 't' '\t' l := by
    simp [replaceSeq2]
    exact replaceSeq2_cons_ne '\\' 't' '\t' 'n' _ (by decide)
  have h2 : replaceSeq2 '\\' 'n' '\n' ('\\' :: 'n' :: replaceSeq2 '\\' 't' '\t' l)
      = '\n' :: replaceSeq2 '\\' 'n' '\n' (replaceSeq2 '\\' 't' '\t' l) := by
    simp [replaceSeq2]
  rw [h1, h2, replaceSeq2_cons_ne '\\' 'r' '\r' '\n' _ (by decide)]

theorem unescapeField_cr (l : List Char) :
    unescapeField ('\\' :: 'r' :: l) = '\r' :: unescapeField l := by
  unfold unescapeField
  have h1 : replaceSeq2 '\\' 't' '\t' ('\\' :: 'r' :: l)
      = '\\' :: 'r' :: replaceSeq2 '\\' 't' '\t' l := by
    simp [replaceSeq2]
    exact replaceSeq2_cons_ne '\\' 't' '\t' 'r' _ (by decide)
  have h2 : replaceSeq2 '\\' 'n' '\n' ('\\' :: 'r' :: replaceSeq2 '\\' 't' '\t' l)
      = '\\' :: 'r' :: replaceSeq2 '\\' 'n' '\n' (replaceSeq2 '\\' 't' '\t' l) := by
    simp [replaceSeq2]
    exact replaceSeq2_cons_ne '\\' 'n' '\n' 'r' _ (by decide)
  have h3 : replaceSeq2 '\\' 'r' '\r'
        ('\\' :: 'r' :: replaceSeq2 '\\' 'n' '\n' (replaceSeq2 '\\' 't' '\t' l))
      = '\r' :: replaceSeq2 '\\' 'r' '\r'
          (replaceSeq2 '\\' 'n' '\n' (replaceSeq2 '\\' 't' '\t' l)) := by
    simp [replaceSeq2]
  rw [h1, h2, h3]

theorem unescape_escape (s : List Char) (h : '\\' ∉ s) :
    unescapeField (escapeField s) = s := by
  induction s with
  | nil => rfl
  | cons c cs ih =>
    have hc : c ≠ '\\' := by intro he; exact h (he ▸ List.mem_cons_self c cs)
    have hcs : '\\' ∉ cs := fun hm => h (List.mem_cons_of_mem _ hm)
    rw [escapeField_cons]
    by_cases h1 : c = '\t'
    · subst h1
      rw [show escCharSpec '\t' = ['\\', 't'] from rfl]
      rw [List.cons_append, List.cons_append, List.nil_append, unescapeField_tab, ih hcs]
    · by_cases h2 : c = '\n'
      · subst h2
        rw [show escCharSpec '\n' = ['\\', 'n'] from rfl]
        rw [List.cons_append, List.cons_append, List.nil_append, unescapeField_nl, ih hcs]
      · by_cases h3 : c = '\r'
        · subst h3
          rw [show escCharSpec '\r' = ['\\', 'r'] from rfl]
          rw [List.cons_append, List.cons_append, List.nil_append, unescapeField_cr,
            ih hcs]
        · rw [show escCharSpec c = [c] by simp [escCharSpec, h1, h2, h3]]
          rw [List.cons_append, List.nil_append, unescapeField_cons_ne _ _ hc, ih hcs]

theorem digitChar_toNat (d : Nat) (h : d < 10) : (digitChar d).toNat = 48 + d := by
  interval_cases d <;> decide

theorem digitChar_isDigit (d : Nat) (h : d < 10) : (digitChar d).isDigit = true := by
  interval_cases d <;> decide

theorem natReprAux_spec (fuel : Nat) : ∀ n, n < fuel →
    natReprAux fuel n ≠ [] ∧ (∀ c ∈ natReprAux fuel n, c.isDigit = true) ∧
    (natReprAux fuel n).foldl (fun a c => a * 10 + (c.toNat - 48)) 0 = n := by
  induction fuel with
  | zero => intro n hn; omega
  | succ fuel ih =>
    intro n hn
    by_cases h10 : n < 10
    · refine ⟨by simp [natReprAux, h10], ?_, ?_⟩
      · intro c hc
        simp [natReprAux, h10] at hc
        exact hc ▸ digitChar_isDigit n h10
      · simp [natReprAux, h10, List.foldl, digitChar_toNat n h10]
    · have hdiv : n / 10 < fuel := by
        have h1 : n / 10 < n := Nat.div_lt_self (by omega) (by omega)
        omega
      obtain ⟨hne, hdig, hval⟩ := ih (n / 10) hdiv
      have hm : n % 10 < 10 := Nat.mod_lt _ (by omega)
      refine ⟨?_, ?_, ?_⟩
      · simp [natReprAux, h10]
      · intro c hc
        simp only [natReprAux, if_neg h10, List.mem_append, List.mem_singleton] at hc
        rcases hc with hc | hc
        · exact hdig c hc
        · exact hc ▸ digitChar_isDigit _ hm
      · simp only [natReprAux, if_neg h10, List.foldl_append, hval, List.foldl,
          digitChar_toNat _ hm]
        omega

theorem natRepr_ne_nil (n : Nat) : natRepr n ≠ [] :=
  (natReprAux_spec (n + 1) n (by omega)).1

theorem natRepr_digits (n : Nat) : ∀ c ∈ natRepr n, c.isDigit = true :=
  (natReprAux_spec (n + 1) n (by omega)).2.1

theorem natRepr_foldl (n : Nat) :
    (natRepr n).foldl (fun a c => a * 10 + (c.toNat - 48)) 0 = n :=
  (natReprAux_spec (n + 1) n (by omega)).2.2

theorem digit_not_special (c : Char) (h : c.isDigit = true) :
    (c == '-') = false ∧ (c == '+') = false ∧ isJsWs c = false := by
  refine ⟨?_, ?_, ?_⟩
  · rw [beq_eq_false_iff_ne]
    intro he; subst he; exact absurd h (by decide)
  · rw [beq_eq_false_iff_ne]
    intro he; subst he; exact absurd h (by decide)
  · cases hws : isJsWs c
    · rfl
    · exfalso
      simp only [isJsWs, Bool.or_eq_true, beq_iff_eq] at hws
      rcases hws with ((((h1 | h1) | h1) | h1) | h1) | h1 <;>
        (subst h1; exact absurd h (by decide))

theorem takeWhile_all (p : Char → Bool) :
    ∀ l : List Char, (∀ c ∈ l, p c = true) → l.takeWhile p = l := by
  intro l h
  induction l with
  | nil => rfl
  | cons c cs ih =>
    rw [List.takeWhile_cons, if_pos (h c (List.mem_cons_self c cs))]
    rw [ih (fun x hx => h x (List.mem_cons_of_mem _ hx))]

theorem jsParseInt_all_digits (c : Char) (cs : List Char)
    (hdig : ∀ x ∈ c :: cs, x.isDigit = true) :
    jsParseInt (c :: cs)
      = some (((c :: cs).foldl (fun a x => a * 10 + (x.toNat - 48)) 0 : Nat) : Int) := by
  have hcdig : c.isDigit = true := hdig c (List.mem_cons_self c cs)
  obtain ⟨hminus, hplus, hws⟩ := digit_not_special c hcdig
  have e1 : List.dropWhile isJsWs (c :: cs) = c :: cs := by
    rw [List.dropWhile_cons, hws]
    simp
  have e3 : List.takeWhile Char.isDigit (c :: cs) = c :: cs := takeWhile_all _ _ hdig
  unfold jsParseInt
  simp [e1, e3, hminus, hplus]

theorem jsParseInt_natRepr (n : Nat) : jsParseInt (natRepr n) = some ((n : Nat) : Int) := by
  obtain ⟨c, cs, hl⟩ := List.exists_cons_of_ne_nil (natRepr_ne_nil n)
  rw [hl, jsParseInt_all_digits c cs (fun x hx => natRepr_digits n x (hl ▸ hx)), ← hl,
    natRepr_foldl]

theorem jsParseInt_neg_digits (c : Char) (cs : List Char)
    (hdig : ∀ x ∈ c :: cs, x.isDigit = true) :
    jsParseInt ('-' :: c :: cs)
      = some (-(((c :: cs).foldl (fun a x => a * 10 + (x.toNat - 48)) 0 : Nat) : Int)) := by
  have e1 : List.dropWhile isJsWs ('-' :: c :: cs) = '-' :: c :: cs := by
    rw [List.dropWhile_cons]
    rw [show isJsWs '-' = false from rfl]
    simp
  have e3 : List.takeWhile Char.isDigit (c :: cs) = c :: cs := takeWhile_all _ _ hdig
  unfold jsParseInt
  simp [e1, e3]

theorem jsParseInt_intRepr (i : Int) : jsParseInt (intRepr i) = some i := by
  by_cases hneg : i < 0
  · unfold intRepr
    rw [if_pos hneg]
    obtain ⟨c, cs, hl⟩ := List.exists_cons_of_ne_nil (natRepr_ne_nil (-i).toNat)
    rw [hl, jsParseInt_neg_digits c cs (fun x hx => natRepr_digits (-i).toNat x (hl ▸ hx)),
      ← hl, natRepr_foldl]
    rw [Option.some_inj]
    omega
  · unfold intRepr
    rw [if_neg hneg, jsParseInt_natRepr, Option.some_inj]
    omega

theorem splitOnChar_not_mem (sep : Char) (l : List Char) (h : sep ∉ l) :
    splitOnChar sep l = [l] := by
  induction l with
  | nil => rfl
  | cons c cs ih =>
    have hc : ¬(c == sep) = true := by
      simp only [beq_iff_eq]
      intro he; exact h (he ▸ List.mem_cons_self c cs)
    rw [splitOnChar, if_neg hc, ih (fun hm => h (List.mem_cons_of_mem _ hm))]

theorem splitOnChar_append_cons (sep : Char) (l rest : List Char) (h : sep ∉ l) :
    splitOnChar sep (l ++ sep :: rest) = l :: splitOnChar sep rest := by
  induction l with
  | nil =>
    rw [List.nil_append, splitOnChar, if_pos (by simp)]
  | cons c cs ih =>
    have hc : ¬(c == sep) = true := by
      simp only [beq_iff_eq]
      intro he; exact h (he ▸ List.mem_cons_self c cs)
    rw [List.cons_append, splitOnChar, if_neg hc,
      ih (fun hm => h (List.mem_cons_of_mem _ hm))]

theorem jsTrim_eq_self (l : List Char) (hne : l ≠ [])
    (hh : isJsWs (l.headD 'a') = false) (hl : isJsWs (l.getLastD 'a') = false) :
    jsTrim l = l := by
  obtain ⟨c, cs, hc⟩ := List.exists_cons_of_ne_nil hne
  have h1 : l.dropWhile isJsWs = l := by
    rw [hc, List.dropWhile_cons, if_neg (by rw [hc] at hh; simpa using hh)]
  have hrevne : l.reverse ≠ [] := by simp [hne]
  obtain ⟨d, ds, hd⟩ := List.exists_cons_of_ne_nil hrevne
  have hdlast : l.getLastD 'a' = d := by
    have : l.reverse.head? = some d := by rw [hd]; rfl
    rw [List.head?_reverse] at this
    rw [List.getLastD_eq_getLast?, this]
    rfl
  have h2 : l.reverse.dropWhile isJsWs = l.reverse := by
    rw [hd, List.dropWhile_cons, if_neg (by rw [hdlast] at hl; simpa using hl)]
  unfold jsTrim
  rw [h1, h2, List.reverse_reverse]

theorem foldl_append_linesCat (recs : List VisitRecord) : ∀ init : List Char,
    recs.foldl
      (fun acc r => acc ++ (escapeField r.url ++ '\t' :: intRepr r.timestamp ++ ['\n']))
      init
      = init ++ linesCat recs := by
  induction recs with
  | nil => intro init; simp [linesCat]
  | cons r rs ih =>
    intro init
    rw [List.foldl_cons, ih, linesCat, recordLine]
    simp [List.append_assoc]

theorem export_eq (recs : List VisitRecord) :
    exportHistoryToTSV recs = "url\ttimestamp".data ++ '\n' :: linesCat recs := by
  unfold exportHistoryToTSV
  rw [foldl_append_linesCat]
  rw [show ("url\ttimestamp\n".data : List Char) = "url\ttimestamp".data ++ ['\n'] by decide]
  simp [List.append_assoc]

theorem intRepr_chars (i : Int) : ∀ c ∈ intRepr i, c.isDigit = true ∨ c = '-' := by
  intro c hc
  unfold intRepr at hc
  split_ifs at hc
  · rcases List.mem_cons.mp hc with h | h
    · exact Or.inr h
    · exact Or.inl (natRepr_digits _ c h)
  · exact Or.inl (natRepr_digits _ c hc)

theorem intRepr_ne_nil (i : Int) : intRepr i ≠ [] := by
  unfold intRepr
  split_ifs
  · simp
  · exact natRepr_ne_nil _

theorem char_class_facts (c : Char) (h : c.isDigit = true ∨ c = '-') :
    c ≠ '\t' ∧ c ≠ '\n' ∧ isJsWs c = false := by
  rcases h with h | h
  · refine ⟨?_, ?_, (digit_not_special c h).2.2⟩
    · intro he; subst he; exact absurd h (by decide)
    · intro he; subst he; exact absurd h (by decide)
  · subst h; exact ⟨by decide, by decide, by decide⟩

theorem escCharSpec_ne_nil (c : Char) : escCharSpec c ≠ [] := by
  unfold escCharSpec; split_ifs <;> simp

theorem escapeField_ne_nil (u : List Char) (h : u ≠ []) : escapeField u ≠ [] := by
  obtain ⟨c, cs, hc⟩ := List.exists_cons_of_ne_nil h
  rw [hc, escapeField_cons]
  simp [escCharSpec_ne_nil c]

theorem goodUrl_spec (u : List Char) (h : goodUrl u = true) :
    u ≠ [] ∧ '\\' ∉ u ∧ isSpaceLike (u.headD 'a') = false := by
  unfold goodUrl at h
  simp only [Bool.and_eq_true, Bool.not_eq_true'] at h
  obtain ⟨⟨h1, h2⟩, h3⟩ := h
  refine ⟨?_, ?_, h3⟩
  · intro he; rw [he] at h1; exact absurd h1 (by decide)
  · intro hm
    rw [show (u.contains '\\') = u.elem '\\' from rfl] at h2
    rw [(List.elem_iff).mpr hm] at h2
    exact absurd h2 (by decide)

theorem escapeField_head_not_ws (u : List Char) (hg : goodUrl u = true) :
    isJsWs ((escapeField u).headD 'a') = false := by
  obtain ⟨hne, _, hsl⟩ := goodUrl_spec u hg
  obtain ⟨c, cs, hc⟩ := List.exists_cons_of_ne_nil hne
  rw [hc] at hsl
  rw [List.headD_cons] at hsl
  rw [hc, escapeField_cons]
  by_cases h1 : c = '\t'
  · subst h1
    rw [show escCharSpec '\t' = ['\\', 't'] from rfl]
    exact (by decide : isJsWs '\\' = false)
  · by_cases h2 : c = '\n'
    · subst h2
      rw [show escCharSpec '\n' = ['\\', 'n'] from rfl]
      exact (by decide : isJsWs '\\' = false)
    · by_cases h3 : c = '\r'
      · subst h3
        rw [show escCharSpec '\r' = ['\\', 'r'] from rfl]
        exact (by decide : isJsWs '\\' = false)
      · rw [show escCharSpec c = [c] by simp [escCharSpec, h1, h2, h3]]
        rw [List.cons_append, List.headD_cons]
        cases hj : isJsWs c
        · rfl
        · exfalso
          simp only [isJsWs, Bool.or_eq_true, beq_iff_eq] at hj
          rcases hj with ((((hx | hx) | hx) | hx) | hx) | hx
          · rw [hx] at hsl; exact absurd hsl (by decide)
          · exact h1 hx
          · exact h2 hx
          · exact h3 hx
          · rw [hx] at hsl; exact absurd hsl (by decide)
          · rw [hx] at hsl; exact absurd hsl (by decide)

theorem recordLine_no_nl (r : VisitRecord) : '\n' ∉ recordLine r := by
  unfold recordLine
  rw [List.mem_append]
  rintro (h | h)
  · exact (escapeField_no_ctl r.url).2.1 h
  · rcases List.mem_cons.mp h with h | h
    · exact absurd h (by decide)
    · exact (char_class_facts _ (intRepr_chars _ _ h)).2.1 rfl

theorem recordLine_ne_nil (r : VisitRecord) : recordLine r ≠ [] := by
  unfold recordLine; simp

theorem jsTrim_recordLine (r : VisitRecord) (hg : goodUrl r.url = true) :
    jsTrim (recordLine r) = recordLine r := by
  obtain ⟨hne, _, _⟩ := goodUrl_spec r.url hg
  apply jsTrim_eq_self _ (recordLine_ne_nil r)
  · obtain ⟨c, cs, hc⟩ := List.exists_cons_of_ne_nil (escapeField_ne_nil r.url hne)
    have := escapeField_head_not_ws r.url hg
    rw [hc, List.headD_cons] at this
    rw [recordLine, hc, List.cons_append, List.headD_cons]
    exact this
  · have hint : intRepr r.timestamp ≠ [] := intRepr_ne_nil _
    obtain ⟨d, hd⟩ : ∃ d, (intRepr r.timestamp).getLast? = some d := by
      cases hi : (intRepr r.timestamp).getLast?
      · exact absurd (List.getLast?_eq_none_iff.mp hi) hint
      · exact ⟨_, rfl⟩
    have h1 : (recordLine r).getLast? = some d := by
      rw [recordLine]
      rw [List.getLast?_append]
      rw [show ('\t' :: intRepr r.timestamp) = ['\t'] ++ intRepr r.timestamp from rfl]
      rw [List.getLast?_append, hd]
      rfl
    have hdm : d ∈ intRepr r.timestamp := List.mem_of_getLast?_eq_some hd
    rw [List.getLastD_eq_getLast?, h1]
    exact (char_class_facts _ (intRepr_chars _ _ hdm)).2.2

theorem splitTab_recordLine (r : VisitRecord) :
    splitOnChar '\t' (recordLine r) = [escapeField r.url, intRepr r.timestamp] := by
  rw [recordLine, splitOnChar_append_cons _ _ _ (escapeField_no_ctl r.url).1]
  rw [splitOnChar_not_mem _ _ (fun h =>
    (char_class_facts _ (intRepr_chars _ _ h)).1 rfl)]

theorem dbPut_append (db : List VisitRecord) (r : VisitRecord)
    (h : r.url ∉ db.map (fun x => x.url)) : dbPut db r = db ++ [r] := by
  rw [dbPut, if_neg]
  intro hany
  rw [List.any_eq_true] at hany
  obtain ⟨x, hx, he⟩ := hany
  rw [beq_iff_eq] at he
  exact h (he ▸ List.mem_map_of_mem (fun y => y.url) hx)

theorem processLines_cons_valid (db : List VisitRecord) (i e : Nat) (r : VisitRecord)
    (rest : List (List Char)) (hg : goodUrl r.url = true) :
    processLines db i e (recordLine r :: rest)
      = processLines (dbPut db r) (i + 1) e rest := by
  obtain ⟨hne, hnb, _⟩ := goodUrl_spec r.url hg
  simp only [processLines]
  rw [jsTrim_recordLine r hg]
  rw [if_neg (by simp [recordLine_ne_nil r] : ¬((recordLine r).isEmpty = true))]
  rw [splitTab_recordLine]
  rw [if_neg (by simp : ¬(([escapeField r.url, intRepr r.timestamp] :
    List (List Char)).length < 2))]
  rw [show ([escapeField r.url, intRepr r.timestamp].headD ([] : List Char))
    = escapeField r.url from rfl]
  rw [show ([escapeField r.url, intRepr r.timestamp].getD 1 ([] : List Char))
    = intRepr r.timestamp from rfl]
  rw [unescape_escape _ hnb, jsParseInt_intRepr]
  simp only [if_neg (by simp [hne] : ¬(r.url.isEmpty = true))]

theorem processLines_linesCat (recs : List VisitRecord) :
    ∀ (db : List VisitRecord) (i e : Nat),
    (∀ r ∈ recs, goodUrl r.url = true) →
    (∀ r ∈ recs, r.url ∉ db.map (fun x => x.url)) →
    (recs.map (fun r => r.url)).Nodup →
    processLines db i e (splitOnChar '\n' (linesCat recs))
      = (db ++ recs, i + recs.length, e) := by
  induction recs with
  | nil =>
    intro db i e _ _ _
    simp [linesCat, splitOnChar, processLines, jsTrim]
  | cons r rs ih =>
    intro db i e hg hdisj hnd
    rw [List.map_cons] at hnd
    obtain ⟨hnotin, hndtl⟩ := List.nodup_cons.mp hnd
    rw [linesCat, splitOnChar_append_cons _ _ _ (recordLine_no_nl r)]
    rw [processLines_cons_valid db i e r _ (hg r (List.mem_cons_self _ _))]
    rw [dbPut_append db r (hdisj r (List.mem_cons_self _ _))]
    rw [ih (db ++ [r]) (i + 1) e
      (fun x hx => hg x (List.mem_cons_of_mem _ hx)) ?_ hndtl]
    · simp only [List.append_assoc, List.singleton_append, List.length_cons,
        Prod.mk.injEq, true_and, and_true]
      omega
    · intro x hx
      rw [List.map_append, List.mem_append]
      rintro (hm | hm)
      · exact hdisj x (List.mem_cons_of_mem _ hx) hm
      · simp only [List.map_cons, List.map_nil, List.mem_singleton] at hm
        exact hnotin (hm ▸ List.mem_map_of_mem (fun y => y.url) hx)

theorem processLines_counts : ∀ (ls : List (List Char)) (db : List VisitRecord) (i e : Nat),
    (processLines db i e ls).2.1 + (processLines db i e ls).2.2 ≤ i + e + ls.length := by
  intro ls
  induction ls with
  | nil => intro db i e; simp [processLines]
  | cons l rest ih =>
    intro db i e
    by_cases hb : (jsTrim l).isEmpty = true
    · simp only [processLines, if_pos hb, List.length_cons]
      have := ih db i e
      omega
    · by_cases hlen : (splitOnChar '\t' (jsTrim l)).length < 2
      · simp only [processLines, if_neg hb, if_pos hlen, List.length_cons]
        have := ih db i (e + 1)
        omega
      · cases hp : jsParseInt ((splitOnChar '\t' (jsTrim l)).getD 1 []) with
        | none =>
          simp only [processLines, if_neg hb, if_neg hlen, hp, List.length_cons]
          have := ih db i (e + 1)
          omega
        | some ts =>
          by_cases hu : (unescapeField ((splitOnChar '\t' (jsTrim l)).headD [])).isEmpty = true
          · simp only [processLines, if_neg hb, if_neg hlen, hp, if_pos hu,
              List.length_cons]
            have := ih db i (e + 1)
            omega
          · simp only [processLines, if_neg hb, if_neg hlen, hp, if_neg hu,
              List.length_cons]
            have := ih (dbPut db
              ⟨unescapeField ((splitOnChar '\t' (jsTrim l)).headD []), ts⟩) (i + 1) e
            omega

/-- C3 (amended): exporting a record set with `exportHistoryToTSV` and
importing the text with `importHistoryFromTSV` into an empty store
reproduces the record set exactly — including URLs containing tab or
newline characters — provided every URL is non-empty, contains no
backslash character, and does not start with residual whitespace; the
URLs of a store's record set are pairwise distinct by construction. -/
theorem exportImport_roundtrip (recs : List VisitRecord)
    (hgood : ∀ r ∈ recs, goodUrl r.url = true)
    (hnd : (recs.map (fun r => r.url)).Nodup) :
    importHistoryFromTSV (exportHistoryToTSV recs) [] = (recs, recs.length, 0) := by
  unfold importHistoryFromTSV
  rw [export_eq, splitOnChar_append_cons _ _ _ (by decide)]
  rw [show (("url\ttimestamp".data :: splitOnChar '\n' (linesCat recs)).drop 1)
    = splitOnChar '\n' (linesCat recs) from rfl]
  simpa using processLines_linesCat recs [] 0 0 hgood (by simp) hnd

/-- Witness for `exportImport_roundtrip`: a concrete two-record store, one
URL containing a tab, round-trips exactly. -/
theorem exportImport_roundtrip_witness :
    (∀ r ∈ ([⟨"https://a.test/".data, 1000⟩, ⟨"b\tb".data, 2⟩] : List VisitRecord),
      goodUrl r.url = true) ∧
    (([⟨"https://a.test/".data, 1000⟩, ⟨"b\tb".data, 2⟩] : List VisitRecord).map
      (fun r => r.url)).Nodup ∧
    importHistoryFromTSV
        (exportHistoryToTSV [⟨"https://a.test/".data, 1000⟩, ⟨"b\tb".data, 2⟩]) []
      = ([⟨"https://a.test/".data, 1000⟩, ⟨"b\tb".data, 2⟩], 2, 0) :=
  ⟨by decide, by decide, exportImport_roundtrip _ (by decide) (by decide)⟩

/-- C3 counterexample: a URL containing the literal two-character sequence
backslash-t is not escaped on export (the escaping touches only real
tab/newline/CR characters, not backslashes), but import unescapes it into
a tab, so the round trip returns a different record set. -/
theorem exportImport_roundtrip_counterexample :
    importHistoryFromTSV (exportHistoryToTSV [⟨"a\\tb".data, 1⟩]) []
        = ([⟨"a\tb".data, 1⟩], 1, 0) ∧
    ("a\tb".data : List Char) ≠ "a\\tb".data := by decide

/-- C4: `importHistoryFromTSV` splits into lines, skips the header and
blank lines, counts malformed lines in `errors` and upserts well-formed
ones counting `imported`; on the documented scenario input it returns
`imported = 2`, `errors = 1`, and in general each non-header line
contributes at most one to `imported + errors`. -/
theorem importFromTSV_line_rules :
    importHistoryFromTSV ("url\ttimestamp\nhttps://x/\t5\nbadline\nhttps://y/\t7\n".data) []
        = ([⟨"https://x/".data, 5⟩, ⟨"https://y/".data, 7⟩], 2, 1) ∧
    ∀ (tsv : List Char) (db : List VisitRecord),
      (importHistoryFromTSV tsv db).2.1 + (importHistoryFromTSV tsv db).2.2
        ≤ ((splitOnChar '\n' tsv).drop 1).length := by
  constructor
  · decide
  · intro tsv db
    simpa [importHistoryFromTSV] using
      processLines_counts ((splitOnChar '\n' tsv).drop 1) db 0 0

theorem batchImported_getLastD (n : Nat) : (batchImported n).getLastD 0 = n := by
  unfold batchImported
  rcases Nat.eq_zero_or_pos n with h0 | hpos
  · subst h0; simp
  · have hk : (n + 99) / 100 = ((n + 99) / 100 - 1) + 1 := by omega
    rw [hk, List.range_succ, List.map_append, List.map_singleton,
      List.getLastD_concat]
    exact Nat.min_eq_right (by omega)

/-- C5 counterexample: a snapshot taken right after a run starts — after
line 109 set `inProgress` but before the awaited `chrome.history.search`
returns and line 121 assigns `total` — still reports the previous run's
`total` (42 here), so it is not true that every snapshot after the run
starts shows the new run's counters. -/
theorem importRun_progress_counterexample :
    ¬ (∀ st ∈ importRunTrajectory ⟨false, 42, 7⟩ 1, st.total = 1) := by decide

/-- C5 (amended): a run of `importHistoryToDB` sets `inProgress := true`
and `imported := 0` immediately; `total` is assigned the source-item
count only after the awaited history fetch, though still before any batch
is processed; from that assignment on every snapshot carries the new
run's `total`, and the run ends with `inProgress = false` and `imported =
total`.  The first snapshot, between run start and the fetch, still
carries the previous run's `total`. -/
theorem importRun_progress_reset (p : ImportProgress) (n : Nat) :
    (importRunTrajectory p n).head? = some ⟨true, p.total, 0⟩ ∧
    ((importRunTrajectory p n).drop 1).head? = some ⟨true, n, 0⟩ ∧
    (∀ st ∈ (importRunTrajectory p n).drop 1, st.total = n) ∧
    (importRunTrajectory p n).getLast? = some ⟨false, n, n⟩ := by
  refine ⟨rfl, rfl, ?_, ?_⟩
  · intro st hst
    simp only [importRunTrajectory, List.drop_succ_cons, List.drop_zero] at hst
    rcases List.mem_cons.mp hst with h | h
    · rw [h]
    · rcases List.mem_append.mp h with h | h
      · obtain ⟨m, _, rfl⟩ := List.mem_map.mp h
        rfl
      · rw [List.mem_singleton.mp h]
  · show (importRunTrajectory p n).getLast? = some ⟨false, n, n⟩
    have he : importRunTrajectory p n
        = ((⟨true, p.total, 0⟩ : ImportProgress) ::
           (⟨true, n, 0⟩ : ImportProgress) ::
           (batchImported n).map (fun m => (⟨true, n, m⟩ : ImportProgress)))
          ++ [⟨false, n, (batchImported n).getLastD 0⟩] := by
      simp [importRunTrajectory]
    rw [he, List.getLast?_concat, batchImported_getLastD]

/-- Witness for `importRun_progress_reset`: concrete run with previous
progress `{false, 42, 7}` and 150 fetched items; the snapshot after the
first batch carries `total = 150`, and the run ends at
`{false, 150, 150}`. -/
theorem importRun_progress_reset_witness :
    (⟨true, 150, 100⟩ : ImportProgress).total = 150 ∧
    (importRunTrajectory ⟨false, 42, 7⟩ 150).getLast? = some ⟨false, 150, 150⟩ :=
  ⟨(importRun_progress_reset ⟨false, 42, 7⟩ 150).2.2.1 ⟨true, 150, 100⟩ (by decide),
   (importRun_progress_reset ⟨false, 42, 7⟩ 150).2.2.2⟩

/-- C6: an `importHistory` request made while `importProgress.inProgress`
is true is answered immediately with the "already in progress" error, no
new run is started (no progress states are entered), and the progress
counters are left exactly as they were. -/
theorem importHistory_rejected_while_running (p : ImportProgress) (n : Nat)
    (h : p.inProgress = true) :
    handleImportHistory p n = (some "Import already in progress", p, []) := by
  unfold handleImportHistory
  rw [if_pos h]

/-- Witness for `importHistory_rejected_while_running` at the concrete
progress state `{true, 5, 2}`. -/
theorem importHistory_rejected_witness :
    handleImportHistory ⟨true, 5, 2⟩ 9
      = (some "Import already in progress", ⟨true, 5, 2⟩, []) :=
  importHistory_rejected_while_running ⟨true, 5, 2⟩ 9 rfl

/-- C7: `initDB` is idempotent with a single shared attempt — a second
call before the first settles returns the same memoized promise and
changes nothing; after a successful settlement later calls still return
that same promise; after a failed settlement the promise is discarded and
the next call allocates a fresh attempt. -/
theorem initDB_memoization (s0 : DBInit)
    (hfresh : ∀ a, s0.dbInitPromise = some a → a < s0.nextAttempt) :
    (initDB (initDB s0).1).2 = (initDB s0).2 ∧
    (initDB (initDB s0).1).1 = (initDB s0).1 ∧
    initDB (settleInit (initDB s0).1 true) = ((initDB s0).1, (initDB s0).2) ∧
    (initDB (settleInit (initDB s0).1 false)).2 ≠ (initDB s0).2 := by
  cases hs : s0.dbInitPromise with
  | none =>
    refine ⟨?_, ?_, ?_, ?_⟩ <;> simp [initDB, settleInit, hs]
  | some a =>
    have ha := hfresh a hs
    refine ⟨?_, ?_, ?_, ?_⟩ <;> simp [initDB, settleInit, hs]
    omega

/-- Witness for `initDB_memoization` at the pristine module state. -/
theorem initDB_memoization_witness :
    (initDB (initDB ⟨none, 0⟩).1).2 = (initDB (⟨none, 0⟩ : DBInit)).2 ∧
    (initDB (initDB ⟨none, 0⟩).1).1 = (initDB (⟨none, 0⟩ : DBInit)).1 ∧
    initDB (settleInit (initDB ⟨none, 0⟩).1 true)
      = ((initDB (⟨none, 0⟩ : DBInit)).1, (initDB (⟨none, 0⟩ : DBInit)).2) ∧
    (initDB (settleInit (initDB ⟨none, 0⟩).1 false)).2
      ≠ (initDB (⟨none, 0⟩ : DBInit)).2 :=
  initDB_memoization ⟨none, 0⟩ (by intro a h; simp at h)

theorem mget?_mset_self {α : Type} (m : List (String × α)) (k : String) (v : α) :
    mget? (mset m k v) k = some v := by
  induction m with
  | nil => simp [mset, mget?]
  | cons p rest ih =>
    by_cases h : p.1 = k
    · simp [mset, mget?, h]
    · simp only [mset, mget?, beq_iff_eq, if_neg h]
      exact ih

theorem mget?_mset_ne {α : Type} (m : List (String × α)) (k k' : String) (v : α)
    (h : k' ≠ k) : mget? (mset m k v) k' = mget? m k' := by
  induction m with
  | nil => simp [mset, mget?, Ne.symm h]
  | cons p rest ih =>
    by_cases hp : p.1 = k
    · simp [mset, mget?, hp, Ne.symm h]
    · simp [mset, mget?, hp, ih]

theorem mget?_mdel_self {α : Type} (m : List (String × α)) (k : String) :
    mget? (mdel m k) k = none := by
  induction m with
  | nil => simp [mdel, mget?]
  | cons p rest ih =>
    by_cases h : p.1 = k
    · simp only [mdel, List.filter_cons]
      rw [if_neg (by simp [h])]
      exact ih
    · simp only [mdel, List.filter_cons]
      rw [if_pos (by simp [h])]
      rw [mget?, if_neg (by simp [h])]
      exact ih

theorem mget?_mdel_ne {α : Type} (m : List (String × α)) (k k' : String)
    (h : k' ≠ k) : mget? (mdel m k) k' = mget? m k' := by
  induction m with
  | nil => simp [mdel, mget?]
  | cons p rest ih =>
    by_cases hp : p.1 = k
    · simp only [mdel, List.filter_cons]
      rw [if_neg (by simp [hp])]
      rw [mget?, if_neg (by simp [hp, Ne.symm h])]
      exact ih
    · simp only [mdel, List.filter_cons]
      rw [if_pos (by simp [hp])]
      by_cases hk' : p.1 = k'
      · rw [mget?, mget?, if_pos (by simp [hk']), if_pos (by simp [hk'])]
      · rw [mget?, mget?, if_neg (by simp [hk']), if_neg (by simp [hk'])]
        exact ih

theorem mget?_eq_none_iff {α : Type} (m : List (String × α)) (k : String) :
    mget? m k = none ↔ ∀ p ∈ m, p.1 ≠ k := by
  induction m with
  | nil => simp [mget?]
  | cons p rest ih =>
    by_cases h : p.1 = k
    · simp [mget?, h]
    · rw [mget?, if_neg (by simp [h])]
      rw [ih]
      constructor
      · intro hall q hq
        rcases List.mem_cons.mp hq with hq | hq
        · exact hq ▸ h
        · exact hall q hq
      · intro hall q hq
        exact hall q (List.mem_cons_of_mem _ hq)

theorem mget?_foldl_mset_ne (rs : List (String × Bool)) :
    ∀ (c0 : List (String × Bool)) (u : String), (∀ p ∈ rs, p.1 ≠ u) →
    mget? (rs.foldl (fun c p => mset c p.1 p.2) c0) u = mget? c0 u := by
  induction rs with
  | nil => intro c0 u _; rfl
  | cons p rest ih =>
    intro c0 u h
    rw [List.foldl_cons]
    rw [ih (mset c0 p.1 p.2) u (fun q hq => h q (List.mem_cons_of_mem _ hq))]
    exact mget?_mset_ne c0 p.1 u p.2 (fun he => h p (List.mem_cons_self _ _) he.symm)

theorem contains_iff_mem (l : List String) (x : String) :
    l.contains x = true ↔ x ∈ l := by
  rw [show (l.contains x) = l.elem x from rfl]
  exact List.elem_iff

theorem mem_dedupKeep (xs : List String) : ∀ (seen : List String) (u : String),
    u ∈ dedupKeep seen xs ↔ (u ∈ xs ∧ u ∉ seen) := by
  induction xs with
  | nil => intro seen u; simp [dedupKeep]
  | cons x xs ih =>
    intro seen u
    by_cases hx : seen.contains x = true
    · rw [dedupKeep, if_pos hx, ih]
      have hxs : x ∈ seen := (contains_iff_mem seen x).mp hx
      constructor
      · rintro ⟨h1, h2⟩
        exact ⟨List.mem_cons_of_mem _ h1, h2⟩
      · rintro ⟨h1, h2⟩
        rcases List.mem_cons.mp h1 with h1 | h1
        · exact absurd (h1 ▸ hxs) h2
        · exact ⟨h1, h2⟩
    · rw [dedupKeep, if_neg hx]
      have hxs : x ∉ seen := fun hm => hx ((contains_iff_mem seen x).mpr hm)
      constructor
      · intro hm
        rcases List.mem_cons.mp hm with h1 | h1
        · exact ⟨h1 ▸ List.mem_cons_self x xs, h1 ▸ hxs⟩
        · obtain ⟨h2, h3⟩ := (ih (seen ++ [x]) u).mp h1
          rw [List.mem_append] at h3
          push_neg at h3
          exact ⟨List.mem_cons_of_mem _ h2, h3.1⟩
      · rintro ⟨h1, h2⟩
        rcases List.mem_cons.mp h1 with h1 | h1
        · exact h1 ▸ List.mem_cons_self x _
        · by_cases hux : u = x
          · exact hux ▸ List.mem_cons_self x _
          · refine List.mem_cons_of_mem _ ((ih (seen ++ [x]) u).mpr ⟨h1, ?_⟩)
            rw [List.mem_append]
            push_neg
            exact ⟨h2, by simp [hux]⟩

theorem findSingle_append_fresh (l : List StoreQuery) (q : Nat) (us : List String)
    (h : ∀ x ∈ l, x.qid ≠ q) :
    findSingle (l ++ [⟨q, us, true⟩]) q = some ⟨q, us, true⟩ := by
  induction l with
  | nil => simp [findSingle, List.find?]
  | cons x rest ih =>
    rw [List.cons_append, findSingle, List.find?_cons_of_neg]
    · exact ih (fun y hy => h y (List.mem_cons_of_mem _ hy))
    · simp [h x (List.mem_cons_self _ _)]

theorem filter_append_fresh (l : List StoreQuery) (q : Nat) (us : List String)
    (single0 : Bool) (h : ∀ x ∈ l, x.qid ≠ q) :
    (l ++ [StoreQuery.mk q us single0]).filter (fun x => x.qid != q) = l := by
  rw [List.filter_append]
  have h1 : List.filter (fun x => x.qid != q) [StoreQuery.mk q us single0] = [] := by
    simp
  rw [h1, List.append_nil]
  rw [List.filter_eq_self.mpr]
  intro x hx
  simp [h x hx]

/-- C10: a successful `clearHistory` deletes every record, resets the
durable `historyImported` marker to `false` and `lastImportTime` to
absent, so a following `getStats` reports count 0 with no import time and
the next startup `initialize` triggers a fresh bulk import. -/
theorem clearHistory_resets (g : BgState) :
    (handleClearHistory g).2 = true ∧
    (handleClearHistory g).1.store = [] ∧
    (handleClearHistory g).1.historyImported = false ∧
    (handleClearHistory g).1.lastImportTime = none ∧
    handleGetStats (handleClearHistory g).1 = (0, none) ∧
    initializeRuns (handleClearHistory g).1 = true :=
  ⟨rfl, rfl, rfl, rfl, rfl, rfl⟩

theorem invS_empty : InvS emptySession :=
  ⟨by simp [emptySession], by simp [emptySession], by simp [emptySession]⟩

theorem filter_len_le_one {β : Type} (p : β → Bool) (R : β → β → Prop) :
    ∀ l : List β, l.Pairwise R →
    (∀ a b, a ∈ l → b ∈ l → p a = true → p b = true → R a b → False) →
    (l.filter p).length ≤ 1 := by
  intro l
  induction l with
  | nil => intro _ _; simp
  | cons a t ih =>
    intro hpw hcon
    obtain ⟨hhead, htail⟩ := List.pairwise_cons.mp hpw
    by_cases hpa : p a = true
    · rw [List.filter_cons_of_pos hpa]
      have ht : t.filter p = [] := by
        rw [List.filter_eq_nil_iff]
        intro b hb hpb
        exact hcon a b (List.mem_cons_self _ _) (List.mem_cons_of_mem _ hb) hpa hpb
          (hhead b hb)
      rw [ht]
      simp
    · rw [List.filter_cons_of_neg (by simp [hpa])]
      exact ih htail
        (fun x y hx hy => hcon x y (List.mem_cons_of_mem _ hx) (List.mem_cons_of_mem _ hy))

theorem invS_count (s : Session) (hs : InvS s) (u : String) :
    (s.inflight.filter (fun q => q.urls.contains u)).length ≤ 1 := by
  refine filter_len_le_one _ _ s.inflight hs.distinct ?_
  intro a b ha hb hpa hpb hR
  obtain ⟨-, ua, hua, hpa'⟩ := hs.wf a ha
  obtain ⟨-, ub, hub, hpb'⟩ := hs.wf b hb
  have hma : u ∈ a.urls := (contains_iff_mem _ _).mp hpa
  have hmb : u ∈ b.urls := (contains_iff_mem _ _).mp hpb
  rw [hua, List.mem_singleton] at hma
  rw [hub, List.mem_singleton] at hmb
  rw [← hma] at hpa'
  rw [← hmb] at hpb'
  have := hpa'.symm.trans hpb'
  simp only [Option.some_inj, PendEntry.live.injEq] at this
  exact hR this

theorem invS_step (norm : String → String) (s : Session) (e : Ev) (hs : InvS s)
    (he : oneOnly e = true) : InvS (stepEv norm s e) := by
  cases e with
  | one cv url =>
    cases hc : mget? s.cache (norm url) with
    | some b =>
      have hst : stepEv norm s (Ev.one cv url) = s := by
        simp [stepEv, checkUrlVisited, hc]
      rw [hst]; exact hs
    | none =>
      cases hp : mget? s.pending (norm url) with
      | some pe =>
        cases pe with
        | live q =>
          have hst : stepEv norm s (Ev.one cv url) = s := by
            simp [stepEv, checkUrlVisited, hc, hp]
          rw [hst]; exact hs
        | doneFalse =>
          have hst : stepEv norm s (Ev.one cv url) = s := by
            simp [stepEv, checkUrlVisited, hc, hp]
          rw [hst]; exact hs
      | none =>
        cases cv with
        | false =>
          have hst : stepEv norm s (Ev.one false url)
              = { s with pending := mset s.pending (norm url) PendEntry.doneFalse } := by
            simp [stepEv, checkUrlVisited, hc, hp]
          rw [hst]
          refine ⟨?_, hs.fresh, hs.distinct⟩
          intro q hq
          obtain ⟨hsing, u0, hu0, hpend⟩ := hs.wf q hq
          refine ⟨hsing, u0, hu0, ?_⟩
          have hne : u0 ≠ norm url := by
            intro heq
            rw [heq, hp] at hpend
            exact Option.noConfusion hpend
          rw [mget?_mset_ne s.pending (norm url) u0 _ hne]
          exact hpend
        | true =>
          have hst : stepEv norm s (Ev.one true url)
              = { cache := s.cache,
                  pending := mset s.pending (norm url) (PendEntry.live s.nextId),
                  nextId := s.nextId + 1,
                  inflight := s.inflight ++ [StoreQuery.mk s.nextId [norm url] true] } := by
            simp [stepEv, checkUrlVisited, hc, hp]
          rw [hst]
          refine ⟨?_, ?_, ?_⟩
          · intro q hq
            rcases List.mem_append.mp hq with hq | hq
            · obtain ⟨hsing, u0, hu0, hpend⟩ := hs.wf q hq
              refine ⟨hsing, u0, hu0, ?_⟩
              have hne : u0 ≠ norm url := by
                intro heq
                rw [heq, hp] at hpend
                exact Option.noConfusion hpend
              rw [mget?_mset_ne s.pending (norm url) u0 _ hne]
              exact hpend
            · rw [List.mem_singleton.mp hq]
              exact ⟨rfl, norm url, rfl, by rw [mget?_mset_self]⟩
          · intro q hq
            rcases List.mem_append.mp hq with hq | hq
            · exact Nat.lt_succ_of_lt (hs.fresh q hq)
            · rw [List.mem_singleton.mp hq]
              exact Nat.lt_succ_self _
          · rw [List.pairwise_append]
            refine ⟨hs.distinct, List.pairwise_singleton _ _, ?_⟩
            intro a ha b hb
            rw [List.mem_singleton.mp hb]
            exact Nat.ne_of_lt (hs.fresh a ha)
  | oneOk q b =>
    cases hf : findSingle s.inflight q with
    | none =>
      have hst : stepEv norm s (Ev.oneOk q b) = s := by simp [stepEv, hf]
      rw [hst]; exact hs
    | some qu =>
      have hqmem : qu ∈ s.inflight := List.mem_of_find?_eq_some hf
      have hqpred := List.find?_some hf
      rw [Bool.and_eq_true] at hqpred
      have hqid : qu.qid = q := by simpa using hqpred.1
      obtain ⟨hsing, u0, hu0, hpend⟩ := hs.wf qu hqmem
      have hhead : qu.urls.headD "" = u0 := by rw [hu0]; rfl
      have hst : stepEv norm s (Ev.oneOk q b)
          = { s with cache := mset s.cache u0 b,
                     pending := mdel s.pending u0,
                     inflight := s.inflight.filter (fun x => x.qid != q) } := by
        simp only [stepEv, hf]
        rw [hu0]
        rfl
      rw [hst]
      refine ⟨?_, ?_, ?_⟩
      · intro x hx
        have hx' : x ∈ s.inflight.filter (fun y => y.qid != q) := hx
        have hxmem : x ∈ s.inflight := (List.mem_filter.mp hx').1
        have hxpred : (x.qid != q) = true := by simpa using (List.mem_filter.mp hx').2
        have hxq : x.qid ≠ q := by simpa using hxpred
        obtain ⟨hxs, ux, hux, hupend⟩ := hs.wf x hxmem
        refine ⟨hxs, ux, hux, ?_⟩
        have hne : ux ≠ u0 := by
          intro heq
          rw [heq] at hupend
          have := hupend.symm.trans hpend
          simp only [Option.some_inj, PendEntry.live.injEq] at this
          exact hxq (this.trans hqid)
        rw [mget?_mdel_ne s.pending u0 ux hne]
        exact hupend
      · intro x hx
        have hx' : x ∈ s.inflight.filter (fun y => y.qid != q) := hx
        exact hs.fresh x (List.mem_of_mem_filter hx')
      · exact hs.distinct.sublist (List.filter_sublist _)
  | oneFail q =>
    cases hf : findSingle s.inflight q with
    | none =>
      have hst : stepEv norm s (Ev.oneFail q) = s := by simp [stepEv, hf]
      rw [hst]; exact hs
    | some qu =>
      have hqmem : qu ∈ s.inflight := List.mem_of_find?_eq_some hf
      have hqpred := List.find?_some hf
      rw [Bool.and_eq_true] at hqpred
      have hqid : qu.qid = q := by simpa using hqpred.1
      obtain ⟨hsing, u0, hu0, hpend⟩ := hs.wf qu hqmem
      have hhead : qu.urls.headD "" = u0 := by rw [hu0]; rfl
      have hst : stepEv norm s (Ev.oneFail q)
          = { s with pending := mdel s.pending u0,
                     inflight := s.inflight.filter (fun x => x.qid != q) } := by
        simp only [stepEv, hf]
        rw [hu0]
        rfl
      rw [hst]
      refine ⟨?_, ?_, ?_⟩
      · intro x hx
        have hx' : x ∈ s.inflight.filter (fun y => y.qid != q) := hx
        have hxmem : x ∈ s.inflight := (List.mem_filter.mp hx').1
        have hxpred : (x.qid != q) = true := by simpa using (List.mem_filter.mp hx').2
        have hxq : x.qid ≠ q := by simpa using hxpred
        obtain ⟨hxs, ux, hux, hupend⟩ := hs.wf x hxmem
        refine ⟨hxs, ux, hux, ?_⟩
        have hne : ux ≠ u0 := by
          intro heq
          rw [heq] at hupend
          have := hupend.symm.trans hpend
          simp only [Option.some_inj, PendEntry.live.injEq] at this
          exact hxq (this.trans hqid)
        rw [mget?_mdel_ne s.pending u0 ux hne]
        exact hupend
      · intro x hx
        have hx' : x ∈ s.inflight.filter (fun y => y.qid != q) := hx
        exact hs.fresh x (List.mem_of_mem_filter hx')
      · exact hs.distinct.sublist (List.filter_sublist _)
  | many cv urls => exact absurd he (by simp [oneOnly])
  | manyOk q rs => exact absurd he (by simp [oneOnly])
  | manyFail q => exact absurd he (by simp [oneOnly])

theorem invS_run (norm : String → String) (evs : List Ev) :
    ∀ s : Session, InvS s → (∀ e ∈ evs, oneOnly e = true) →
    InvS (runEvents norm s evs) := by
  induction evs with
  | nil => intro s hs _; exact hs
  | cons e rest ih =>
    intro s hs hall
    rw [runEvents, List.foldl_cons]
    exact ih (stepEv norm s e) (invS_step norm s e hs (hall e (List.mem_cons_self _ _)))
      (fun x hx => hall x (List.mem_cons_of_mem _ hx))

/-- C1 (amended): within the `checkUrlVisited` path the `pendingChecks`
map does enforce at-most-one outstanding store query per normalized URL —
over any sequence of `checkUrlVisited` starts and settlements of their
queries, every reachable session state has at most one in-flight query
mentioning a given URL, and a `checkUrlVisited` issued while a live
pending promise exists attaches to that promise without touching the
state.  `checkUrlsBatch`, however, consults only the cache and not
`pendingChecks`, so the invariant does not extend across that path (see
the counterexample). -/
theorem checkOne_dedup (norm : String → String) :
    (∀ evs : List Ev, (∀ e ∈ evs, oneOnly e = true) → ∀ u : String,
      ((runEvents norm emptySession evs).inflight.filter
        (fun q => q.urls.contains u)).length ≤ 1) ∧
    (∀ (cv : Bool) (s : Session) (url : String) (q : Nat),
      mget? s.cache (norm url) = none →
      mget? s.pending (norm url) = some (PendEntry.live q) →
      checkUrlVisited norm cv s url = (s, OneRes.attached q)) := by
  constructor
  · intro evs hall u
    exact invS_count _ (invS_run norm evs emptySession invS_empty hall) u
  · intro cv s url q hc hp
    simp [checkUrlVisited, hc, hp]

/-- Witness for `checkOne_dedup`: two concurrent `checkUrlVisited "a"`
starts followed by a failure settlement leave at most one in-flight query
for `"a"`, and a start against a live pending entry attaches to it. -/
theorem checkOne_dedup_witness :
    (((runEvents (fun u => u) emptySession
        [Ev.one true "a", Ev.one true "a", Ev.oneFail 0]).inflight.filter
      (fun q => q.urls.contains "a")).length ≤ 1) ∧
    checkUrlVisited (fun u => u) true
        ⟨[], [("a", PendEntry.live 5)], 6, [⟨5, ["a"], true⟩]⟩ "a"
      = (⟨[], [("a", PendEntry.live 5)], 6, [⟨5, ["a"], true⟩]⟩, OneRes.attached 5) :=
  ⟨(checkOne_dedup (fun u => u)).1 [Ev.one true "a", Ev.one true "a", Ev.oneFail 0]
      (by decide) "a",
   (checkOne_dedup (fun u => u)).2 true
      ⟨[], [("a", PendEntry.live 5)], 6, [⟨5, ["a"], true⟩]⟩ "a" 5 (by decide) (by decide)⟩

/-- C1 counterexample: a `checkUrlVisited "u"` start issues a query for
`"u"`; a `checkUrlsBatch ["u"]` started before it settles does not
consult `pendingChecks` and issues a second query, so two store queries
for the same normalized URL are outstanding at once. -/
theorem checkOne_dedup_counterexample :
    ¬ (((runEvents (fun u => u) emptySession
        [Ev.one true "u", Ev.many true ["u"]]).inflight.filter
      (fun q => q.urls.contains "u")).length ≤ 1) := by decide

theorem checkUrlVisited_issue (norm : String → String) (s : Session) (url : String)
    (hc : mget? s.cache (norm url) = none)
    (hp : mget? s.pending (norm url) = none) :
    checkUrlVisited norm true s url
      = ({ cache := s.cache,
           pending := mset s.pending (norm url) (PendEntry.live s.nextId),
           nextId := s.nextId + 1,
           inflight := s.inflight ++ [StoreQuery.mk s.nextId [norm url] true] },
         OneRes.issued s.nextId) := by
  simp [checkUrlVisited, hc, hp]

theorem checkUrlVisited_invalid (norm : String → String) (s : Session) (url : String)
    (hc : mget? s.cache (norm url) = none)
    (hp : mget? s.pending (norm url) = none) :
    checkUrlVisited norm false s url
      = ({ s with pending := mset s.pending (norm url) PendEntry.doneFalse },
         OneRes.val false) := by
  simp [checkUrlVisited, hc, hp]

/-- C9 (amended): when the store query issued by `checkUrlVisited` fails
in transport (`chrome.runtime.lastError`), the call resolves `false`,
writes nothing into the cache, and clears the pending entry, so a later
`checkUrlVisited` for the same URL issues a fresh store query.  When the
context is invalidated (or `sendMessage` throws synchronously) the call
also resolves `false` without a cache write — but no query was issued and
line 107 still registers the already-resolved promise in `pendingChecks`,
so a later `checkUrlVisited` attaches to that stale promise and returns
`false` without a fresh query. -/
theorem checkOne_failure_no_cache (norm : String → String) (s : Session) (url : String)
    (hc : mget? s.cache (norm url) = none)
    (hp : mget? s.pending (norm url) = none)
    (hq : ∀ qu ∈ s.inflight, qu.qid ≠ s.nextId) :
    (checkUrlVisited norm true s url).2 = OneRes.issued s.nextId ∧
    (stepEv norm (checkUrlVisited norm true s url).1 (Ev.oneFail s.nextId)).cache
      = s.cache ∧
    mget? (stepEv norm (checkUrlVisited norm true s url).1
      (Ev.oneFail s.nextId)).pending (norm url) = none ∧
    (checkUrlVisited norm true
        (stepEv norm (checkUrlVisited norm true s url).1 (Ev.oneFail s.nextId)) url).2
      = OneRes.issued (s.nextId + 1) ∧
    (checkUrlVisited norm false s url).1.cache = s.cache ∧
    (checkUrlVisited norm false s url).2 = OneRes.val false := by
  have h1 := checkUrlVisited_issue norm s url hc hp
  have h2 : stepEv norm (checkUrlVisited norm true s url).1 (Ev.oneFail s.nextId)
      = { cache := s.cache,
          pending := mdel (mset s.pending (norm url) (PendEntry.live s.nextId))
            (norm url),
          nextId := s.nextId + 1,
          inflight := s.inflight } := by
    rw [h1]
    simp only [stepEv]
    rw [findSingle_append_fresh s.inflight s.nextId [norm url] hq]
    rw [filter_append_fresh s.inflight s.nextId [norm url] true hq]
    rfl
  refine ⟨by rw [h1], by rw [h2], by rw [h2]; exact mget?_mdel_self _ _, ?_, ?_, ?_⟩
  · rw [h2]
    rw [checkUrlVisited_issue norm
      { cache := s.cache,
        pending := mdel (mset s.pending (norm url) (PendEntry.live s.nextId)) (norm url),
        nextId := s.nextId + 1,
        inflight := s.inflight } url hc (mget?_mdel_self _ _)]
  · rw [checkUrlVisited_invalid norm s url hc hp]
  · rw [checkUrlVisited_invalid norm s url hc hp]

/-- Witness for `checkOne_failure_no_cache` at the empty session. -/
theorem checkOne_failure_no_cache_witness :
    (checkUrlVisited (fun u => u) true emptySession "a").2 = OneRes.issued 0 ∧
    (stepEv (fun u => u) (checkUrlVisited (fun u => u) true emptySession "a").1
      (Ev.oneFail 0)).cache = ([] : List (String × Bool)) ∧
    mget? (stepEv (fun u => u) (checkUrlVisited (fun u => u) true emptySession "a").1
      (Ev.oneFail 0)).pending "a" = none ∧
    (checkUrlVisited (fun u => u) true
        (stepEv (fun u => u) (checkUrlVisited (fun u => u) true emptySession "a").1
          (Ev.oneFail 0)) "a").2
      = OneRes.issued 1 ∧
    (checkUrlVisited (fun u => u) false emptySession "a").1.cache
      = ([] : List (String × Bool)) ∧
    (checkUrlVisited (fun u => u) false emptySession "a").2 = OneRes.val false :=
  checkOne_failure_no_cache (fun u => u) emptySession "a"
    (by decide) (by decide) (by decide)

/-- C9 counterexample: after a `checkUrlVisited` whose context is
invalidated (resolving `false` with no cache write, as the claim says), a
later `checkUrlVisited` for the same URL with a valid context returns
`false` from the stale pending promise and issues no fresh store query —
its result is an immediate value and the in-flight set stays empty. -/
theorem checkOne_failure_counterexample :
    (checkUrlVisited (fun u => u) false emptySession "u").2 = OneRes.val false ∧
    (checkUrlVisited (fun u => u) false emptySession "u").1.cache = [] ∧
    (checkUrlVisited (fun u => u) true
        (checkUrlVisited (fun u => u) false emptySession "u").1 "u").2
      = OneRes.val false ∧
    (checkUrlVisited (fun u => u) true
        (checkUrlVisited (fun u => u) false emptySession "u").1 "u").1.inflight
      = [] := by decide

theorem not_isSome_iff_none (o : Option Bool) : ((!o.isSome) = true) ↔ o = none := by
  cases o <;> simp

theorem checkUrlsBatch_allCached (norm : String → String) (cv : Bool) (s : Session)
    (urls : List String) (resp : Option (List (String × Bool)))
    (h : (dedupKeep [] (urls.map norm)).filter
      (fun u => !(mget? s.cache u).isSome) = []) :
    checkUrlsBatch norm cv s urls resp
      = (s, (dedupKeep [] (urls.map norm)).map
          (fun u => (u, (mget? s.cache u).getD false))) := by
  simp only [checkUrlsBatch, h]
  rfl

theorem checkUrlsBatch_fail (norm : String → String) (s : Session)
    (urls : List String)
    (h : (dedupKeep [] (urls.map norm)).filter
      (fun u => !(mget? s.cache u).isSome) ≠ []) :
    checkUrlsBatch norm true s urls none
      = (s, (dedupKeep [] (urls.map norm)).map (fun u => (u, false))) := by
  simp only [checkUrlsBatch]
  rw [if_neg (by simpa [List.isEmpty_iff] using h)]
  rw [if_neg (by simp)]

theorem checkUrlsBatch_ok (norm : String → String) (s : Session)
    (urls : List String) (rs : List (String × Bool))
    (h : (dedupKeep [] (urls.map norm)).filter
      (fun u => !(mget? s.cache u).isSome) ≠ []) :
    checkUrlsBatch norm true s urls (some rs)
      = ({ s with cache := rs.foldl (fun c p => mset c p.1 p.2) s.cache },
         (dedupKeep [] (urls.map norm)).map
           (fun u => (u, (mget? (rs.foldl (fun c p => mset c p.1 p.2) s.cache)
             u).getD false))) := by
  simp only [checkUrlsBatch]
  rw [if_neg (by simpa [List.isEmpty_iff] using h)]
  rw [if_neg (by simp)]

/-- C2 (amended): `checkUrlsBatch` de-duplicates its input, answers
cached distinct URLs from the cache and sends exactly the uncached ones
in the batched query; when the reply arrives, results for URLs the query
did not cover come from the untouched cache.  But when the batched query
fails, the code maps every distinct requested URL — the already-cached
ones included — to `isVisited: false` in the returned results; only the
cache entries themselves survive for later calls. -/
theorem checkMany_partition (norm : String → String) (s : Session)
    (urls : List String) (rs : List (String × Bool)) :
    (∀ u, u ∈ (dedupKeep [] (urls.map norm)).filter
        (fun x => !(mget? s.cache x).isSome)
      ↔ (u ∈ urls.map norm ∧ mget? s.cache u = none)) ∧
    ((∀ p ∈ rs, p.1 ∈ (dedupKeep [] (urls.map norm)).filter
        (fun x => !(mget? s.cache x).isSome)) →
      ∀ u b, u ∈ dedupKeep [] (urls.map norm) → mget? s.cache u = some b →
        (u, b) ∈ (checkUrlsBatch norm true s urls (some rs)).2) ∧
    (((dedupKeep [] (urls.map norm)).filter
        (fun x => !(mget? s.cache x).isSome)) ≠ [] →
      checkUrlsBatch norm true s urls none
        = (s, (dedupKeep [] (urls.map norm)).map (fun u => (u, false)))) := by
  refine ⟨?_, ?_, ?_⟩
  · intro u
    rw [List.mem_filter, mem_dedupKeep, not_isSome_iff_none (mget? s.cache u)]
    simp
  · intro hrs u b hu hb
    by_cases hemp : (dedupKeep [] (urls.map norm)).filter
        (fun x => !(mget? s.cache x).isSome) = []
    · rw [checkUrlsBatch_allCached norm true s urls (some rs) hemp]
      refine List.mem_map.mpr ⟨u, hu, ?_⟩
      rw [hb]
      rfl
    · rw [checkUrlsBatch_ok norm s urls rs hemp]
      have hnotun : ∀ p ∈ rs, p.1 ≠ u := by
        intro p hp heq
        have := hrs p hp
        rw [heq, List.mem_filter] at this
        rw [hb] at this
        simpa using this.2
      refine List.mem_map.mpr ⟨u, hu, ?_⟩
      rw [mget?_foldl_mset_ne rs s.cache u hnotun, hb]
      rfl
  · intro hne
    exact checkUrlsBatch_fail norm s urls hne

/-- Witness for `checkMany_partition`: cache `{a ↦ true}`, request
`["a", "b"]` — `"b"` is the uncached requested URL, and on a successful
reply about `"b"` the result for `"a"` still carries its cached `true`;
on failure all distinct URLs resolve `false`. -/
theorem checkMany_partition_witness :
    ("b" ∈ (dedupKeep [] ((["a", "b"]).map (fun u => u))).filter
      (fun x => !(mget? (⟨[("a", true)], [], 0, []⟩ : Session).cache x).isSome)) ∧
    (("a", true) ∈ (checkUrlsBatch (fun u => u) true
      ⟨[("a", true)], [], 0, []⟩ ["a", "b"] (some [("b", true)])).2) ∧
    checkUrlsBatch (fun u => u) true ⟨[("a", true)], [], 0, []⟩ ["a", "b"] none
      = (⟨[("a", true)], [], 0, []⟩,
         (dedupKeep [] ((["a", "b"]).map (fun u => u))).map (fun u => (u, false))) :=
  ⟨((checkMany_partition (fun u => u) ⟨[("a", true)], [], 0, []⟩ ["a", "b"]
      [("b", true)]).1 "b").mpr (by decide),
   (checkMany_partition (fun u => u) ⟨[("a", true)], [], 0, []⟩ ["a", "b"]
      [("b", true)]).2.1 (by decide) "a" true (by decide) (by decide),
   (checkMany_partition (fun u => u) ⟨[("a", true)], [], 0, []⟩ ["a", "b"]
      [("b", true)]).2.2 (by decide)⟩

/-- C2 counterexample: with `"a"` cached `true` and `"b"` uncached, a
failing batched query makes `checkUrlsBatch ["a", "b"]` return
`isVisited: false` for `"a"` as well — the result for the already-cached
URL does not carry its cached value. -/
theorem checkMany_partition_counterexample :
    mget? (⟨[("a", true)], [], 0, []⟩ : Session).cache "a" = some true ∧
    ("a", false) ∈ (checkUrlsBatch (fun u => u) true
      ⟨[("a", true)], [], 0, []⟩ ["a", "b"] none).2 ∧
    ("a", true) ∉ (checkUrlsBatch (fun u => u) true
      ⟨[("a", true)], [], 0, []⟩ ["a", "b"] none).2 := by decide

theorem any_fst_map (urls : List String) (G : String → List LinkEl) (nu : String) :
    ((urls.map (fun u => (u, G u))).any (fun p => p.1 == nu))
      = urls.any (fun u => u == nu) := by
  induction urls with
  | nil => rfl
  | cons u us ih => simp [List.any_cons, ih]

theorem any_beq_iff (l : List String) (x : String) :
    (l.any (fun u => u == x)) = true ↔ x ∈ l := by
  simp [List.any_eq_true]

theorem addToGroup_map (urls : List String) (G : String → List LinkEl) (v : String)
    (l : LinkEl) :
    addToGroup (urls.map (fun u => (u, G u))) v l
      = urls.map (fun u => (u, if u = v then G u ++ [l] else G u)) := by
  unfold addToGroup
  rw [List.map_map]
  apply List.map_congr_left
  intro u _
  by_cases h : u = v
  · simp [h]
  · simp [h]

theorem map_append_single (urls : List String) (G : String → List LinkEl) (v : String)
    (l : LinkEl) (hv : v ∉ urls) :
    urls.map (fun u => (u, G u)) ++ [(v, [l])]
      = (urls ++ [v]).map (fun u => (u, if u = v then [l] else G u)) := by
  rw [List.map_append, List.map_singleton]
  congr 1
  · apply List.map_congr_left
    intro u hu
    have hne : u ≠ v := fun he => hv (he ▸ hu)
    simp [hne]
  · simp

theorem processLinksStep_skip (norm : String → String)
    (acc : List (String × List LinkEl) × List String) (l : LinkEl)
    (hp : passesFilter l = false) : processLinksStep norm acc l = acc := by
  simp [processLinksStep, hp]

theorem processLinksStep_mem (norm : String → String) (urls : List String)
    (G : String → List LinkEl) (l : LinkEl) (hp : passesFilter l = true)
    (hv : norm l.href ∈ urls) :
    processLinksStep norm (urls.map (fun u => (u, G u)), urls) l
      = (urls.map (fun u => (u, if u = norm l.href then G u ++ [l] else G u)),
         urls) := by
  have hany : ((urls.map (fun u => (u, G u))).any (fun p => p.1 == norm l.href))
      = true := by
    rw [any_fst_map]
    exact (any_beq_iff urls (norm l.href)).mpr hv
  simp [processLinksStep, hp, hany, addToGroup_map]

theorem processLinksStep_new (norm : String → String) (urls : List String)
    (G : String → List LinkEl) (l : LinkEl) (hp : passesFilter l = true)
    (hv : norm l.href ∉ urls) :
    processLinksStep norm (urls.map (fun u => (u, G u)), urls) l
      = ((urls ++ [norm l.href]).map
          (fun u => (u, if u = norm l.href then [l] else G u)),
         urls ++ [norm l.href]) := by
  have hany : ((urls.map (fun u => (u, G u))).any (fun p => p.1 == norm l.href))
      = false := by
    rw [any_fst_map]
    cases hx : urls.any (fun u => u == norm l.href)
    · rfl
    · exact absurd ((any_beq_iff urls (norm l.href)).mp hx) hv
  simp [processLinksStep, hp, hany, map_append_single urls G (norm l.href) l hv]

theorem scanSpecGroup_cons_skip (norm : String → String) (l : LinkEl)
    (rest : List LinkEl) (u : String) (hp : passesFilter l = false) :
    scanSpecGroup norm (l :: rest) u = scanSpecGroup norm rest u := by
  simp [scanSpecGroup, List.filter_cons, hp]

theorem scanSpecGroup_cons_pass (norm : String → String) (l : LinkEl)
    (rest : List LinkEl) (u : String) (hp : passesFilter l = true) :
    scanSpecGroup norm (l :: rest) u
      = if norm l.href = u then l :: scanSpecGroup norm rest u
        else scanSpecGroup norm rest u := by
  by_cases h : norm l.href = u
  · simp [scanSpecGroup, List.filter_cons, hp, h]
  · simp [scanSpecGroup, List.filter_cons, hp, h]

theorem processLinks_aux (norm : String → String) (ls : List LinkEl) :
    ∀ (urls : List String) (G : String → List LinkEl),
    List.foldl (processLinksStep norm) (urls.map (fun u => (u, G u)), urls) ls
      = ((urls ++ dedupKeep urls
            ((ls.filter passesFilter).map (fun l => norm l.href))).map
          (fun u => (u, (if u ∈ urls then G u else []) ++ scanSpecGroup norm ls u)),
         urls ++ dedupKeep urls
            ((ls.filter passesFilter).map (fun l => norm l.href))) := by
  induction ls with
  | nil =>
    intro urls G
    rw [List.foldl_nil, List.filter_nil, List.map_nil]
    rw [show dedupKeep urls [] = [] from rfl, List.append_nil]
    congr 1
    symm
    apply List.map_congr_left
    intro u hu
    simp [scanSpecGroup, hu]
  | cons l rest ih =>
    intro urls G
    rw [List.foldl_cons]
    cases hp : passesFilter l with
    | false =>
      rw [processLinksStep_skip norm _ l hp, ih urls G]
      rw [List.filter_cons_of_neg (by simp [hp])]
      congr 1
      apply List.map_congr_left
      intro u hu
      rw [scanSpecGroup_cons_skip norm l rest u hp]
    | true =>
      by_cases hv : norm l.href ∈ urls
      · rw [processLinksStep_mem norm urls G l hp hv]
        rw [ih urls (fun u => if u = norm l.href then G u ++ [l] else G u)]
        rw [List.filter_cons_of_pos (by simp [hp]), List.map_cons]
        rw [show dedupKeep urls
              (norm l.href :: (rest.filter passesFilter).map (fun x => norm x.href))
            = dedupKeep urls ((rest.filter passesFilter).map (fun x => norm x.href)) by
          rw [dedupKeep, if_pos ((contains_iff_mem urls (norm l.href)).mpr hv)]]
        congr 1
        apply List.map_congr_left
        intro u hu
        rw [scanSpecGroup_cons_pass norm l rest u hp]
        by_cases huv : u = norm l.href
        · subst huv
          simp [hv, List.append_assoc]
        · simp [huv, show norm l.href ≠ u from fun h => huv h.symm]
      · rw [processLinksStep_new norm urls G l hp hv]
        rw [ih (urls ++ [norm l.href]) (fun u => if u = norm l.href then [l] else G u)]
        rw [List.filter_cons_of_pos (by simp [hp]), List.map_cons]
        rw [show dedupKeep urls
              (norm l.href :: (rest.filter passesFilter).map (fun x => norm x.href))
            = norm l.href :: dedupKeep (urls ++ [norm l.href])
                ((rest.filter passesFilter).map (fun x => norm x.href)) by
          rw [dedupKeep, if_neg (fun hcon => hv ((contains_iff_mem _ _).mp hcon))]]
        rw [show urls ++ norm l.href :: dedupKeep (urls ++ [norm l.href])
              ((rest.filter passesFilter).map (fun x => norm x.href))
            = (urls ++ [norm l.href]) ++ dedupKeep (urls ++ [norm l.href])
              ((rest.filter passesFilter).map (fun x => norm x.href)) by simp]
        congr 1
        apply List.map_congr_left
        intro u hu
        rw [scanSpecGroup_cons_pass norm l rest u hp]
        by_cases huv : u = norm l.href
        · subst huv
          simp [hv]
        · by_cases hu2 : u ∈ urls
          · have hm : u ∈ urls ++ [norm l.href] := List.mem_append.mpr (Or.inl hu2)
            simp [huv, show norm l.href ≠ u from fun h => huv h.symm, hu2, hm]
          · have hm : u ∉ urls ++ [norm l.href] := by
              rw [List.mem_append]
              push_neg
              exact ⟨hu2, by simp [huv]⟩
            simp [huv, show norm l.href ≠ u from fun h => huv h.symm, hu2, hm]

/-- C8: `processLinks` collects exactly the link elements whose `href`
passes the filter (non-empty, not `javascript:`, not a fragment), groups
them by normalized URL in document order, and produces the distinct
normalized URLs in first-occurrence order — it equals the map/list
described by the spec's scan contract. -/
theorem processLinks_characterization (norm : String → String) (links : List LinkEl) :
    processLinks norm links
      = ((scanSpecUrls norm links).map (fun u => (u, scanSpecGroup norm links u)),
         scanSpecUrls norm links) := by
  have h := processLinks_aux norm links [] (fun _ => [])
  simpa [processLinks, scanSpecUrls] using h
